import Mathlib

set_option maxRecDepth 8000
set_option maxHeartbeats 1000000

namespace Toolify

/-- Characters of a JavaScript string, modelled as a list of Unicode scalar values. -/
abbrev Str := List Char

/-- JavaScript whitespace (the class matched by the regex class backslash-s and by trim). -/
def isJsWs (c : Char) : Bool :=
  c == ' ' || c == '\t' || c == '\n' || c == '\r' ||
  c == '\x0b' || c == '\x0c' ||
  c.toNat == 0xa0 || c.toNat == 0x1680 ||
  (0x2000 ≤ c.toNat && c.toNat ≤ 0x200a) ||
  c.toNat == 0x2028 || c.toNat == 0x2029 || c.toNat == 0x202f ||
  c.toNat == 0x205f || c.toNat == 0x3000 || c.toNat == 0xfeff

/-- Bool test: does `s` start with `p` (JavaScript startsWith). -/
def strStarts : Str → Str → Bool
  | _, [] => true
  | [], _ :: _ => false
  | a :: s, b :: p => a == b && strStarts s p

/-- Bool test: does `s` end with `p` (JavaScript endsWith). -/
def strEnds (s p : Str) : Bool :=
  strStarts s.reverse p.reverse

/-- JavaScript toLowerCase, character by character (ASCII-faithful). -/
def lowerStr (s : Str) : Str := s.map Char.toLower

/-- JavaScript indexOf: index of the first occurrence of `pat` in `hay`, if any. -/
def idxOf (pat : Str) : Str → Option Nat
  | [] => if strStarts [] pat then some 0 else none
  | c :: t => if strStarts (c :: t) pat then some 0 else (idxOf pat t).map (· + 1)

/-- JavaScript indexOf with a fromIndex argument: first occurrence at or after `i`. -/
def idxOfFrom (pat hay : Str) (i : Nat) : Option Nat :=
  (idxOf pat (hay.drop i)).map (· + i)

/-- Does `pat` occur as a contiguous substring of `hay`? -/
def hasSub (pat hay : Str) : Bool := (idxOf pat hay).isSome

/-- JavaScript trimStart. -/
def jsTrimStart (s : Str) : Str := s.dropWhile isJsWs

/-- JavaScript trim. -/
def jsTrim (s : Str) : Str := ((s.dropWhile isJsWs).reverse.dropWhile isJsWs).reverse

/-- Concatenation of a list of strings. -/
def joinStr : List Str → Str
  | [] => []
  | x :: t => x ++ joinStr t

/-! ## JSON values and JSON.parse

`parseInvokeXml` runs each trimmed parameter body through JSON.parse and keeps the
parsed value on success.  JSON values are modelled by the `Json` inductive; numbers
are kept exactly as a decimal mantissa and power-of-ten exponent. -/

inductive Json where
  | null
  | bool (b : Bool)
  | num (mant : Int) (exp10 : Int)
  | str (s : Str)
  | arr (elems : List Json)
  | obj (fields : List (Str × Json))

/-- JSON insignificant whitespace. -/
def isJsonWs (c : Char) : Bool := c == ' ' || c == '\t' || c == '\n' || c == '\r'

def skipWs (s : Str) : Str := s.dropWhile isJsonWs

def hexVal (c : Char) : Option Nat :=
  if '0' ≤ c ∧ c ≤ '9' then some (c.toNat - 48)
  else if 'a' ≤ c ∧ c ≤ 'f' then some (c.toNat - 87)
  else if 'A' ≤ c ∧ c ≤ 'F' then some (c.toNat - 55)
  else none

/-- Body of a JSON string literal, after the opening quote; returns content and rest. -/
def parseStringBody : Nat → Str → Option (Str × Str)
  | 0, _ => none
  | fuel + 1, s =>
    match s with
    | [] => none
    | '"' :: rest => some ([], rest)
    | '\\' :: rest =>
      match rest with
      | '"' :: r => (parseStringBody fuel r).map (fun pr => ('"' :: pr.1, pr.2))
      | '\\' :: r => (parseStringBody fuel r).map (fun pr => ('\\' :: pr.1, pr.2))
      | '/' :: r => (parseStringBody fuel r).map (fun pr => ('/' :: pr.1, pr.2))
      | 'b' :: r => (parseStringBody fuel r).map (fun pr => ('\x08' :: pr.1, pr.2))
      | 'f' :: r => (parseStringBody fuel r).map (fun pr => ('\x0c' :: pr.1, pr.2))
      | 'n' :: r => (parseStringBody fuel r).map (fun pr => ('\n' :: pr.1, pr.2))
      | 'r' :: r => (parseStringBody fuel r).map (fun pr => ('\r' :: pr.1, pr.2))
      | 't' :: r => (parseStringBody fuel r).map (fun pr => ('\t' :: pr.1, pr.2))
      | 'u' :: h1 :: h2 :: h3 :: h4 :: r =>
        match hexVal h1, hexVal h2, hexVal h3, hexVal h4 with
        | some a, some b, some c, some d =>
          let n := ((a * 16 + b) * 16 + c) * 16 + d
          if n < 0xd800 ∨ 0xdfff < n then
            (parseStringBody fuel r).map (fun pr => (Char.ofNat n :: pr.1, pr.2))
          else none
        | _, _, _, _ => none
      | _ => none
    | c :: rest =>
      if c.toNat < 0x20 then none
      else (parseStringBody fuel rest).map (fun pr => (c :: pr.1, pr.2))

def takeDigits (s : Str) : Str × Str := (s.takeWhile Char.isDigit, s.dropWhile Char.isDigit)

def digitsToNat (d : Str) : Nat := d.foldl (fun a c => a * 10 + (c.toNat - 48)) 0

/-- Exponent part of a JSON number; `intv`/`fds` are the integer and fraction digits. -/
def parseExpPart (neg : Bool) (intv : Nat) (fds : Str) (s : Str) : Option (Json × Str) :=
  let mantNat : Nat := intv * 10 ^ fds.length + digitsToNat fds
  let mant : Int := if neg then -(mantNat : Int) else (mantNat : Int)
  match s with
  | 'e' :: r =>
    let sr : Int × Str := match r with
      | '+' :: rr => (1, rr)
      | '-' :: rr => (-1, rr)
      | _ => (1, r)
    let (eds, r2) := takeDigits sr.2
    if eds.isEmpty then none
    else some (Json.num mant (sr.1 * (digitsToNat eds : Int) - (fds.length : Int)), r2)
  | 'E' :: r =>
    let sr : Int × Str := match r with
      | '+' :: rr => (1, rr)
      | '-' :: rr => (-1, rr)
      | _ => (1, r)
    let (eds, r2) := takeDigits sr.2
    if eds.isEmpty then none
    else some (Json.num mant (sr.1 * (digitsToNat eds : Int) - (fds.length : Int)), r2)
  | _ => some (Json.num mant (-(fds.length : Int)), s)

/-- JSON number parsing (sign, integer part without leading zeros, fraction, exponent). -/
def parseNumber (s : Str) : Option (Json × Str) :=
  let ns : Bool × Str := match s with
    | '-' :: r => (true, r)
    | _ => (false, s)
  let (ds, s2) := takeDigits ns.2
  if ds.isEmpty then none
  else if 1 < ds.length && ds.headD '0' == '0' then none
  else
    match s2 with
    | '.' :: r =>
      let (fds, s3) := takeDigits r
      if fds.isEmpty then none else parseExpPart ns.1 (digitsToNat ds) fds s3
    | _ => parseExpPart ns.1 (digitsToNat ds) [] s2

def trueLit : Str := "true".toList
def falseLit : Str := "false".toList
def nullLit : Str := "null".toList

mutual

/-- One JSON value at the head of `s` (whitespace already skipped); returns value and rest. -/
def parseVal : Nat → Str → Option (Json × Str)
  | 0, _ => none
  | fuel + 1, s =>
    match s with
    | [] => none
    | '"' :: r => (parseStringBody (r.length + 1) r).map (fun pr => (Json.str pr.1, pr.2))
    | '[' :: r =>
      let r1 := skipWs r
      match r1 with
      | ']' :: r2 => some (Json.arr [], r2)
      | _ => (parseArrItems fuel r1).map (fun pr => (Json.arr pr.1, pr.2))
    | '{' :: r =>
      let r1 := skipWs r
      match r1 with
      | '}' :: r2 => some (Json.obj [], r2)
      | _ => (parseObjItems fuel r1).map (fun pr => (Json.obj pr.1, pr.2))
    | 't' :: _ => if strStarts s trueLit then some (Json.bool true, s.drop 4) else none
    | 'f' :: _ => if strStarts s falseLit then some (Json.bool false, s.drop 5) else none
    | 'n' :: _ => if strStarts s nullLit then some (Json.null, s.drop 4) else none
    | _ => parseNumber s

/-- Comma-separated array items up to the closing bracket. -/
def parseArrItems : Nat → Str → Option (List Json × Str)
  | 0, _ => none
  | fuel + 1, s =>
    match parseVal fuel s with
    | none => none
    | some (v, r) =>
      match skipWs r with
      | ',' :: r2 => (parseArrItems fuel (skipWs r2)).map (fun pr => (v :: pr.1, pr.2))
      | ']' :: r2 => some ([v], r2)
      | _ => none

/-- Comma-separated object members up to the closing brace. -/
def parseObjItems : Nat → Str → Option (List (Str × Json) × Str)
  | 0, _ => none
  | fuel + 1, s =>
    match s with
    | '"' :: r =>
      match parseStringBody (r.length + 1) r with
      | none => none
      | some (k, r1) =>
        match skipWs r1 with
        | ':' :: r2 =>
          match parseVal fuel (skipWs r2) with
          | none => none
          | some (v, r3) =>
            match skipWs r3 with
            | ',' :: r4 => (parseObjItems fuel (skipWs r4)).map (fun pr => ((k, v) :: pr.1, pr.2))
            | '}' :: r4 => some ([(k, v)], r4)
            | _ => none
        | _ => none
    | _ => none

end

/-- JSON.parse: a single value with surrounding whitespace and nothing else. -/
def parseJson (s : Str) : Option Json :=
  match parseVal (s.length + 1) (skipWs s) with
  | some (v, rest) => if (skipWs rest).isEmpty then some v else none
  | none => none

/-! ## The invoke-block extractor (`parseInvokeXml`)

The source locates the invocation name with the case-insensitive pattern
open-marker, then any non-gt characters, then a name attribute, then any non-gt
characters, then gt; and iterates a similar pattern for parameter elements with a
lazy body ended by the close marker.  The functions below reproduce that regex
semantics: candidate attribute positions are tried greedily (rightmost first,
within the non-gt run), captures are the maximal quote-free run, and the overall
match is the leftmost position at which the whole pattern succeeds. -/

def invokeOpenL : Str := "<invoke".toList
def invokeCloseL : Str := "</invoke>".toList
def paramOpenL : Str := "<parameter".toList
def paramCloseL : Str := "</parameter>".toList
def nameAttrL : Str := "name=\"".toList

/-- Case-insensitive startsWith. -/
def ciStarts (s p : Str) : Bool := strStarts (lowerStr s) (lowerStr p)

/-- Complete a name-attribute match: capture the non-quote run, then require the
closing quote, then any non-gt characters, then gt; returns capture and rest. -/
def nameTail (s : Str) : Option (Str × Str) :=
  let cap := s.takeWhile (fun c => c != '"')
  if cap.isEmpty then none
  else
    match s.drop cap.length with
    | '"' :: r1 =>
      match r1.dropWhile (fun c => c != '>') with
      | '>' :: r2 => some (cap, r2)
      | _ => none
    | _ => none

/-- Offsets (largest first) inside the leading non-gt run at which the name
attribute could start; greedy backtracking tries the rightmost candidate first. -/
def attrCandidates (s : Str) : List Nat :=
  let run := s.takeWhile (fun c => c != '>')
  (((List.range (run.length + 1)).filter (fun o => ciStarts (s.drop o) nameAttrL))).reverse

/-- Try to finish an invoke-open match; `s` is the text after the open marker. -/
def invokeAttempt (s : Str) : Option Str :=
  (attrCandidates s).findSome? (fun o => (nameTail (s.drop (o + 6))).map (fun pr => pr.1))

/-- Leftmost full match of the invoke-open pattern; returns the captured name. -/
def findInvokeName : Str → Option Str
  | [] => none
  | c :: t =>
    match (if ciStarts (c :: t) invokeOpenL then invokeAttempt ((c :: t).drop 7) else none) with
    | some n => some n
    | none => findInvokeName t

/-- Try to finish a parameter match after the open marker: name attribute, then the
lazy body up to the first (case-insensitive) close marker.  Returns the captured
name, the raw body, and the rest of the input after the close marker. -/
def paramAttempt (s : Str) : Option (Str × Str × Str) :=
  (attrCandidates s).findSome? (fun o =>
    match nameTail (s.drop (o + 6)) with
    | none => none
    | some (cap, r2) =>
      match idxOf paramCloseL (lowerStr r2) with
      | some k => some (cap, r2.take k, r2.drop (k + 12))
      | none => none)

/-- Leftmost full match of the parameter pattern. -/
def paramFind : Str → Option (Str × Str × Str)
  | [] => none
  | c :: t =>
    match (if ciStarts (c :: t) paramOpenL then paramAttempt ((c :: t).drop 10) else none) with
    | some r => some r
    | none => paramFind t

/-- JavaScript object assignment on a keyed list: an existing key keeps its
position and gets the new value, a new key is appended (last write wins). -/
def setParam : List (Str × Json) → Str → Json → List (Str × Json)
  | [], k, v => [(k, v)]
  | (k0, v0) :: t, k, v => if k0 = k then (k0, v) :: t else (k0, v0) :: setParam t k v

/-- Value of one parameter: trim the inner text; if non-empty, try JSON.parse and
fall back to the trimmed string; empty trimmed text yields the empty string. -/
def paramValue (raw : Str) : Json :=
  let t := jsTrim raw
  if t.isEmpty then Json.str []
  else
    match parseJson t with
    | some v => v
    | none => Json.str t

/-- Global-flag iteration of the parameter pattern, resuming after each match. -/
def collectParams : Nat → Str → List (Str × Json) → List (Str × Json)
  | 0, _, acc => acc
  | fuel + 1, s, acc =>
    match paramFind s with
    | none => acc
    | some (k, raw, rest) => collectParams fuel rest (setParam acc k (paramValue raw))

/-- parseInvokeXml from the source: name from the invoke-open marker, then every
parameter element with JSON-leaf coercion; no invoke match yields null. -/
def parseInvokeXml (xml : Str) : Option (Str × List (Str × Json)) :=
  match findInvokeName xml with
  | none => none
  | some n => some (n, collectParams (xml.length + 1) xml [])

/-! ## JavaScript runtime values and `extractDeltaText` -/

inductive JsValue where
  | undef
  | null
  | bool (b : Bool)
  | num (n : Int)
  | str (s : Str)
  | arr (elems : List JsValue)
  | obj (fields : List (Str × JsValue))

/-- JavaScript falsiness. -/
def jsFalsy : JsValue → Bool
  | .undef => true
  | .null => true
  | .bool b => !b
  | .num n => n == 0
  | .str s => s.isEmpty
  | .arr _ => false
  | .obj _ => false

def lookupField : List (Str × JsValue) → Str → Option JsValue
  | [], _ => none
  | (k, v) :: t, key => if k = key then some v else lookupField t key

/-- Property access: objects look the key up, everything else yields undefined. -/
def jsGetField (v : JsValue) (key : Str) : JsValue :=
  match v with
  | .obj fs =>
    match lookupField fs key with
    | some w => w
    | none => .undef
  | _ => .undef

def intToStr (n : Int) : Str :=
  if n < 0 then '-' :: Nat.toDigits 10 n.natAbs else Nat.toDigits 10 n.toNat

mutual

/-- JavaScript String() coercion on the modelled values. -/
def jsToString : JsValue → Str
  | .undef => "undefined".toList
  | .null => "null".toList
  | .bool true => "true".toList
  | .bool false => "false".toList
  | .num n => intToStr n
  | .str s => s
  | .arr xs => arrToString xs
  | .obj _ => "[object Object]".toList

/-- Array toString: elements joined by commas, nullish elements becoming empty. -/
def arrToString : List JsValue → Str
  | [] => []
  | x :: t =>
    let hd : Str :=
      match x with
      | .undef => []
      | .null => []
      | v => jsToString v
    match t with
    | [] => hd
    | _ :: _ => hd ++ ',' :: arrToString t

end

/-- String(x ?? ""): nullish values coerce to the empty string. -/
def jsCoerceText : JsValue → Str
  | .undef => []
  | .null => []
  | v => jsToString v

def contentKeyL : Str := "content".toList
def textKeyL : Str := "text".toList

/-- Per-element text of an array-shaped content field, as the source computes it. -/
def partTextCode : JsValue → Str
  | .str s => s
  | .obj fs =>
    match lookupField fs textKeyL with
    | some v => jsCoerceText v
    | none => []
  | _ => []

/-- extractDeltaText from the source: falsy delta or falsy content yield empty,
then string pass-through, array concatenation, single object text field. -/
def extractDeltaText (delta : JsValue) : Str :=
  if jsFalsy delta then []
  else
    let content := jsGetField delta contentKeyL
    if jsFalsy content then []
    else
      match content with
      | .str s => s
      | .arr parts => joinStr (parts.map partTextCode)
      | .obj fs =>
        match lookupField fs textKeyL with
        | some v => jsCoerceText v
        | none => []
      | _ => []

/-- Modelled from the spec sentence for claim C7: string verbatim; sequence
concatenated element-wise (strings pass, objects contribute their text field
coerced to string, anything else empty); single object contributes its text
field coerced to string; absent or other shapes yield the empty string. -/
def partTextSpec : JsValue → Str
  | .str s => s
  | .obj fs =>
    match lookupField fs textKeyL with
    | some v => jsCoerceText v
    | none => []
  | _ => []

/-- Spec-side statement of the delta-text precedence (claim C7). -/
def extractDeltaTextSpec (delta : JsValue) : Str :=
  match jsGetField delta contentKeyL with
  | .str s => s
  | .arr parts => joinStr (parts.map partTextSpec)
  | .obj fs =>
    match lookupField fs textKeyL with
    | some v => jsCoerceText v
    | none => []
  | _ => []

/-! ## The ToolifyParser state machine -/

/-- Parser events, as the tagged variants streamed to the downstream encoder. -/
inductive Event where
  | text (content : Str)
  | thinking (content : Str)
  | tool_call (name : Str) (args : List (Str × Json))
  | endEv

def thinkingStartTag : Str := "<thinking>".toList
def thinkingEndTag : Str := "</thinking>".toList

/-- The mutable instance state of ToolifyParser. -/
structure Parser where
  triggerSignal : Option Str
  thinkingEnabled : Bool
  buffer : Str
  captureBuffer : Str
  capturing : Bool
  thinkingMode : Bool
  thinkingBuffer : Str
  events : List Event

/-- The freshly constructed parser. -/
def initParser (t : Option Str) (th : Bool) : Parser :=
  ⟨t, th, [], [], false, false, [], []⟩

/-- JavaScript truthiness test on the optional trigger signal (an absent signal
and the empty-string signal are both falsy). -/
def trigFalsy : Option Str → Bool
  | none => true
  | some s => s.isEmpty

def trigVal (t : Option Str) : Str := t.getD []

/-- The leading-artifact correction: remove one leading run of optional
whitespace, a gt character, and optional whitespace (the regex replace). -/
def stripArtifact (s : Str) : Str :=
  let ws1 := s.takeWhile isJsWs
  match s.drop ws1.length with
  | '>' :: rest => rest.dropWhile isJsWs
  | _ => s

/-- The filtering loop that skips contiguous subsequent invoke blocks after the
first parsed invocation and keeps the first non-invoke residue. -/
def filterLoop : Nat → Str → Str
  | 0, _ => []
  | fuel + 1, remaining =>
    let trimmed := jsTrimStart remaining
    if trimmed.isEmpty then []
    else if strStarts (lowerStr trimmed) invokeOpenL then
      match idxOf invokeCloseL trimmed with
      | some k => filterLoop fuel (trimmed.drop (k + 9))
      | none => remaining
    else remaining

/-- tryEmitInvokes from the source: the extraction attempt on the capture buffer. -/
def tryEmitInvokes (p : Parser) (force : Bool) : Parser :=
  match idxOf invokeOpenL (lowerStr p.captureBuffer) with
  | none =>
    if !force then p
    else
      { p with
        events := p.events ++ (if p.captureBuffer.isEmpty then [] else [Event.text p.captureBuffer]),
        captureBuffer := [], capturing := false }
  | some startIdx =>
    match idxOfFrom invokeCloseL p.captureBuffer startIdx with
    | none => p
    | some endIdx =>
      let endPos := endIdx + 9
      let invokeXml := (p.captureBuffer.take endPos).drop startIdx
      let afterInvoke := p.captureBuffer.drop endPos
      let afterTrimmed := jsTrimStart afterInvoke
      if !afterTrimmed.isEmpty && !strStarts (lowerStr afterTrimmed) invokeOpenL && !force then
        { p with
          events := p.events ++ [Event.text p.captureBuffer],
          captureBuffer := [], capturing := false }
      else
        let before := p.captureBuffer.take startIdx
        let beforeEvs := if before.isEmpty then [] else [Event.text before]
        match parseInvokeXml invokeXml with
        | some nv =>
          let filteredContent := filterLoop (afterInvoke.length + 1) afterInvoke
          let trailEvs := if (jsTrim filteredContent).isEmpty then [] else [Event.text filteredContent]
          { p with
            events := p.events ++ beforeEvs ++ [Event.tool_call nv.1 nv.2] ++ trailEvs,
            captureBuffer := [], capturing := false }
        | none =>
          { p with
            events := p.events ++ beforeEvs ++ [Event.text p.captureBuffer],
            captureBuffer := [], capturing := false }

/-- checkThinkingMode from the source: entry peeks at buffer plus the incoming
character for the start tag; exit checks the thinking buffer (before the incoming
character is appended) for the end tag, strips it and applies the correction. -/
def checkThinkingMode (p : Parser) (c : Char) : Parser :=
  if !p.thinkingEnabled then p
  else if !p.thinkingMode then
    let tempBuffer := p.buffer ++ [c]
    if strEnds tempBuffer thinkingStartTag then
      let textPortion := p.buffer.take (p.buffer.length - 9)
      { p with
        buffer := [], thinkingMode := true, thinkingBuffer := [],
        events := p.events ++ (if textPortion.isEmpty then [] else [Event.text textPortion]) }
    else p
  else
    if strEnds p.thinkingBuffer thinkingEndTag then
      let content := stripArtifact (p.thinkingBuffer.take (p.thinkingBuffer.length - 11))
      { p with
        thinkingBuffer := [], thinkingMode := false,
        events := p.events ++ (if content.isEmpty then [] else [Event.thinking content]) }
    else p

/-- The no-trigger-signal character handler from the source. -/
def handleCharWithoutTrigger (p : Parser) (c : Char) : Parser :=
  if !p.thinkingEnabled then
    let buf := p.buffer ++ [c]
    if 256 ≤ buf.length then
      { p with buffer := [], events := p.events ++ [Event.text buf] }
    else { p with buffer := buf }
  else if p.thinkingMode then
    let tb := p.thinkingBuffer ++ [c]
    if strEnds tb thinkingEndTag then
      let content := stripArtifact (tb.take (tb.length - 11))
      { p with
        thinkingBuffer := [], thinkingMode := false,
        events := p.events ++ (if content.isEmpty then [] else [Event.thinking content]) }
    else { p with thinkingBuffer := tb }
  else
    let buf := p.buffer ++ [c]
    if strEnds buf thinkingStartTag then
      let textPortion := buf.take (buf.length - 10)
      { p with
        buffer := [], thinkingMode := true, thinkingBuffer := [],
        events := p.events ++ (if textPortion.isEmpty then [] else [Event.text textPortion]) }
    else if 256 ≤ buf.length then
      { p with buffer := [], events := p.events ++ [Event.text buf] }
    else { p with buffer := buf }

/-- The trigger-enabled part of feedChar after the thinking-mode check: route the
character to the thinking buffer, the capture buffer, or the plain buffer with
its trigger-suffix test. -/
def feedCharMain (p1 : Parser) (c : Char) : Parser :=
  if p1.thinkingEnabled && p1.thinkingMode then
    { p1 with thinkingBuffer := p1.thinkingBuffer ++ [c] }
  else if p1.capturing then
    tryEmitInvokes { p1 with captureBuffer := p1.captureBuffer ++ [c] } false
  else
    let buf := p1.buffer ++ [c]
    if strEnds buf (trigVal p1.triggerSignal) then
      let textPortion := buf.take (buf.length - (trigVal p1.triggerSignal).length)
      { p1 with
        buffer := [], capturing := true, captureBuffer := [],
        events := p1.events ++ (if textPortion.isEmpty then [] else [Event.text textPortion]) }
    else { p1 with buffer := buf }

/-- feedChar from the source. -/
def feedChar (p : Parser) (c : Char) : Parser :=
  if trigFalsy p.triggerSignal then handleCharWithoutTrigger p c
  else feedCharMain (if p.thinkingEnabled then checkThinkingMode p c else p) c

/-- finish from the source: flush plain text, flush a pending thinking buffer
with the correction applied, force an extraction attempt, append the end event,
and reset the accumulators. -/
def finish (p : Parser) : Parser :=
  let p1 :=
    if p.buffer.isEmpty then p
    else { p with events := p.events ++ [Event.text p.buffer] }
  let p2 :=
    if p1.thinkingEnabled && p1.thinkingMode && !p1.thinkingBuffer.isEmpty then
      { p1 with events := p1.events ++ [Event.thinking (stripArtifact p1.thinkingBuffer)] }
    else p1
  let p3 := tryEmitInvokes p2 true
  let p4 := { p3 with events := p3.events ++ [Event.endEv] }
  { p4 with
    buffer := [], captureBuffer := [], capturing := false,
    thinkingBuffer := [], thinkingMode := false }

/-- consumeEvents: a destructive read returning the queue and the drained parser. -/
def consumeEvents (p : Parser) : List Event × Parser :=
  (p.events, { p with events := [] })

/-- Feed a whole string one character at a time. -/
def feedStr (p : Parser) (s : Str) : Parser := s.foldl feedChar p

/-- The driver loop: feed one character, drain, repeat; finish and drain last.
`drainTrace` collects everything the driver forwards downstream. -/
def drainTrace : Parser → Str → List Event
  | p, [] => (consumeEvents (finish p)).1
  | p, c :: cs =>
    let step := consumeEvents (feedChar p c)
    step.1 ++ drainTrace step.2 cs

/-- Bulk alternative: feed the whole text, finish, and drain only once. -/
def bulkTrace (p : Parser) (s : Str) : List Event :=
  (consumeEvents (finish (feedStr p s))).1

/-! ## Basic facts about the string helpers -/

theorem strStarts_iff (p : Str) : ∀ s : Str, strStarts s p = true ↔ ∃ r, s = p ++ r := by
  induction p with
  | nil =>
    intro s
    simp [strStarts]
  | cons b pt ih =>
    intro s
    cases s with
    | nil =>
      simp [strStarts]
    | cons a st =>
      simp only [strStarts, Bool.and_eq_true, beq_iff_eq, ih st, List.cons_append]
      constructor
      · rintro ⟨rfl, r, rfl⟩
        exact ⟨r, rfl⟩
      · rintro ⟨r, h⟩
        rw [List.cons_eq_cons] at h
        exact ⟨h.1, r, h.2⟩

theorem strEnds_iff (s p : Str) : strEnds s p = true ↔ ∃ r, s = r ++ p := by
  rw [strEnds, strStarts_iff]
  constructor
  · rintro ⟨r, h⟩
    refine ⟨r.reverse, ?_⟩
    have h2 := congrArg List.reverse h
    simpa [List.reverse_append] using h2
  · rintro ⟨r, rfl⟩
    exact ⟨r.reverse, by simp [List.reverse_append]⟩

theorem hasSub_iff (pat : Str) : ∀ hay : Str, hasSub pat hay = true ↔ ∃ a b, hay = a ++ pat ++ b := by
  intro hay
  induction hay with
  | nil =>
    simp only [hasSub, idxOf]
    constructor
    · intro h
      have hs : strStarts [] pat = true := by
        by_contra hc
        simp [Bool.not_eq_true] at hc
        simp [hc] at h
      rcases (strStarts_iff pat []).mp hs with ⟨r, hr⟩
      rcases List.append_eq_nil.mp hr.symm with ⟨h1, h2⟩
      exact ⟨[], [], by simp [h1]⟩
    · rintro ⟨a, b, h⟩
      rcases List.append_eq_nil.mp h.symm with ⟨h1, h2⟩
      rcases List.append_eq_nil.mp h1 with ⟨h3, h4⟩
      subst h4
      simp [strStarts]
  | cons c t ih =>
    simp only [hasSub, idxOf] at ih ⊢
    constructor
    · intro h
      by_cases hs : strStarts (c :: t) pat = true
      · rcases (strStarts_iff pat (c :: t)).mp hs with ⟨r, hr⟩
        exact ⟨[], r, by simpa using hr⟩
      · simp only [Bool.not_eq_true] at hs
        simp only [hs, if_false] at h
        have h2 : (idxOf pat t).isSome = true := by
          cases hidx : idxOf pat t <;> simp [hidx] at h ⊢
        rcases ih.mp h2 with ⟨a, b, hab⟩
        exact ⟨c :: a, b, by simp [hab]⟩
    · rintro ⟨a, b, hab⟩
      cases a with
      | nil =>
        have hs : strStarts (c :: t) pat = true := by
          rw [strStarts_iff]
          exact ⟨b, by simpa using hab⟩
        simp [hs]
      | cons a0 at' =>
        rw [List.cons_append, List.cons_append, List.cons_eq_cons] at hab
        have ht : (idxOf pat t).isSome = true := ih.mpr ⟨at', b, by simp [hab.2]⟩
        by_cases hs : strStarts (c :: t) pat = true
        · simp [hs]
        · simp only [Bool.not_eq_true] at hs
          simp [hs, ht]

theorem hasSub_mono_right {pat hay : Str} (r : Str) (h : hasSub pat hay = true) :
    hasSub pat (hay ++ r) = true := by
  rcases (hasSub_iff pat hay).mp h with ⟨a, b, rfl⟩
  exact (hasSub_iff pat _).mpr ⟨a, b ++ r, by simp⟩

theorem hasSub_mono_left {pat hay : Str} (l : Str) (h : hasSub pat hay = true) :
    hasSub pat (l ++ hay) = true := by
  rcases (hasSub_iff pat hay).mp h with ⟨a, b, rfl⟩
  exact (hasSub_iff pat _).mpr ⟨l ++ a, b, by simp⟩

theorem hasSub_of_strEnds {pat s : Str} (h : strEnds s pat = true) : hasSub pat s = true := by
  rcases (strEnds_iff s pat).mp h with ⟨r, rfl⟩
  exact (hasSub_iff pat _).mpr ⟨r, [], by simp⟩

/-- If `pat` does not occur in `b ++ c :: cs`, then the grown buffer `b ++ [c]`
cannot end with `pat`. -/
theorem strEnds_false_of_not_hasSub {pat b cs : Str} {c : Char}
    (h : hasSub pat (b ++ c :: cs) = false) : strEnds (b ++ [c]) pat = false := by
  by_contra hc
  rw [Bool.not_eq_false] at hc
  have h1 := hasSub_mono_right cs (hasSub_of_strEnds hc)
  rw [List.append_assoc] at h1
  simp only [List.singleton_append] at h1
  rw [h1] at h
  cases h

/-- If `pat` does not occur in `b ++ c :: cs`, it does not occur in `cs` either. -/
theorem hasSub_tail_false {pat b cs : Str} {c : Char}
    (h : hasSub pat (b ++ c :: cs) = false) : hasSub pat cs = false := by
  by_contra hc
  rw [Bool.not_eq_false] at hc
  have h1 := hasSub_mono_left (b ++ [c]) hc
  rw [List.append_assoc] at h1
  simp only [List.singleton_append] at h1
  rw [h1] at h
  cases h

theorem takeWhile_ws_app (f : Char → Bool) (a : Str) (y : Char) (r : Str)
    (ha : ∀ x ∈ a, f x = true) (hy : f y = false) :
    (a ++ y :: r).takeWhile f = a := by
  induction a with
  | nil => simp [List.takeWhile, hy]
  | cons x t ih =>
    have hx : f x = true := ha x (by simp)
    simp only [List.cons_append, List.takeWhile_cons, hx, if_true]
    rw [ih (fun z hz => ha z (by simp [hz]))]

theorem dropWhile_ws_app (f : Char → Bool) (a r : Str)
    (ha : ∀ x ∈ a, f x = true) :
    (a ++ r).dropWhile f = r.dropWhile f := by
  induction a with
  | nil => simp
  | cons x t ih =>
    have hx : f x = true := ha x (by simp)
    simp only [List.cons_append, List.dropWhile_cons, hx, if_true]
    exact ih (fun z hz => ha z (by simp [hz]))

/-! ## The event queue is append-only and never read

Every operation of the machine appends to the event queue and computes its
branches from the other fields only.  `clearQ` forgets the queue; each operation
commutes with it, which is the key to the drain-interleaving equivalence. -/

def clearQ (p : Parser) : Parser := { p with events := [] }

theorem clearQ_set (p : Parser) (q : List Event) : clearQ { p with events := q } = clearQ p := rfl

theorem events_set (p : Parser) (q : List Event) : ({ p with events := q }).events = q := rfl

theorem set_set (p : Parser) (q q' : List Event) :
    ({ ({ p with events := q }) with events := q' }) = { p with events := q' } := rfl

theorem checkThinkingMode_q (p : Parser) (c : Char) :
    checkThinkingMode p c
      = { checkThinkingMode (clearQ p) c with
          events := p.events ++ (checkThinkingMode (clearQ p) c).events } := by
  obtain ⟨t, th, b, cb, cap, tm, tb, ev⟩ := p
  cases th <;> cases tm <;>
    simp only [checkThinkingMode, clearQ, Bool.not_true, Bool.not_false, if_true, if_false,
      Bool.false_eq_true, Bool.true_eq_false]
  all_goals try (repeat' split)
  all_goals simp

theorem handleCharWithoutTrigger_q (p : Parser) (c : Char) :
    handleCharWithoutTrigger p c
      = { handleCharWithoutTrigger (clearQ p) c with
          events := p.events ++ (handleCharWithoutTrigger (clearQ p) c).events } := by
  obtain ⟨t, th, b, cb, cap, tm, tb, ev⟩ := p
  cases th <;> cases tm <;>
    simp only [handleCharWithoutTrigger, clearQ, Bool.not_true, Bool.not_false, if_true, if_false,
      Bool.false_eq_true, Bool.true_eq_false]
  all_goals try (repeat' split)
  all_goals simp

theorem tryEmitInvokes_q (p : Parser) (f : Bool) :
    tryEmitInvokes p f
      = { tryEmitInvokes (clearQ p) f with
          events := p.events ++ (tryEmitInvokes (clearQ p) f).events } := by
  obtain ⟨t, th, b, cb, cap, tm, tb, ev⟩ := p
  simp only [tryEmitInvokes, clearQ]
  rcases h1 : idxOf invokeOpenL (lowerStr cb) with _ | si
  · simp only [h1]
    cases f <;> split <;> simp
  · simp only [h1]
    rcases h2 : idxOfFrom invokeCloseL cb si with _ | ei
    · simp [h2]
    · simp only [h2]
      split
      · simp
      · rcases h3 : parseInvokeXml (((cb.take (ei + 9)).drop si)) with _ | nv <;>
          simp [h3]

theorem feedCharMain_q (p1 : Parser) (c : Char) :
    feedCharMain p1 c
      = { feedCharMain (clearQ p1) c with
          events := p1.events ++ (feedCharMain (clearQ p1) c).events } := by
  obtain ⟨t, th, b, cb, cap, tm, tb, ev⟩ := p1
  cases th <;> cases tm <;> cases cap <;>
    simp only [feedCharMain, clearQ, Bool.and_self, Bool.and_true, Bool.and_false,
      Bool.true_and, Bool.false_and, Bool.false_eq_true, Bool.true_eq_false,
      if_true, if_false]
  all_goals
    first
      | exact tryEmitInvokes_q ⟨_, _, _, cb ++ [c], _, _, _, ev⟩ false
      | ((repeat' split) <;> simp)

/-- A parser equals its queue-cleared form with its own events put back. -/
theorem eta_q (p : Parser) : p = { clearQ p with events := p.events ++ (clearQ p).events } := by
  obtain ⟨t, th, b, cb, cap, tm, tb, ev⟩ := p
  simp [clearQ]

theorem feedChar_q (p : Parser) (c : Char) :
    feedChar p c
      = { feedChar (clearQ p) c with
          events := p.events ++ (feedChar (clearQ p) c).events } := by
  obtain ⟨t, th, b, cb, cap, tm, tb, ev⟩ := p
  by_cases htf : trigFalsy t = true
  · simp only [feedChar, clearQ, htf, if_true]
    exact handleCharWithoutTrigger_q ⟨t, th, b, cb, cap, tm, tb, ev⟩ c
  · rw [Bool.not_eq_true] at htf
    simp only [feedChar, clearQ, htf, Bool.false_eq_true, if_false]
    cases th
    · simp only [Bool.false_eq_true, if_false]
      have h := feedCharMain_q ⟨t, false, b, cb, cap, tm, tb, ev⟩ c
      simp only [clearQ] at h
      exact h
    · simp only [if_true]
      have hc := checkThinkingMode_q ⟨t, true, b, cb, cap, tm, tb, ev⟩ c
      simp only [clearQ] at hc
      rw [hc]
      have h1 := feedCharMain_q
        { checkThinkingMode ⟨t, true, b, cb, cap, tm, tb, []⟩ c with
          events := ev ++ (checkThinkingMode ⟨t, true, b, cb, cap, tm, tb, []⟩ c).events } c
      rw [clearQ_set, events_set] at h1
      have h2 := feedCharMain_q (checkThinkingMode ⟨t, true, b, cb, cap, tm, tb, []⟩ c) c
      rw [h1, h2, set_set, events_set, List.append_assoc]

theorem finish_q (p : Parser) :
    finish p = { finish (clearQ p) with events := p.events ++ (finish (clearQ p)).events } := by
  obtain ⟨t, th, b, cb, cap, tm, tb, ev⟩ := p
  by_cases hb : b.isEmpty = true <;> by_cases h2 : (th && tm && !tb.isEmpty) = true
  · simp only [finish, clearQ, hb, h2, eq_self_iff_true, if_true, events_set, set_set,
      List.nil_append]
    rw [tryEmitInvokes_q ⟨t, th, b, cb, cap, tm, tb, ev ++ [Event.thinking (stripArtifact tb)]⟩ true,
      tryEmitInvokes_q ⟨t, th, b, cb, cap, tm, tb, [Event.thinking (stripArtifact tb)]⟩ true]
    simp [clearQ, List.append_assoc]
  · rw [Bool.not_eq_true] at h2
    simp only [finish, clearQ, hb, h2, eq_self_iff_true, if_true, Bool.false_eq_true, if_false,
      events_set, set_set, List.nil_append]
    rw [tryEmitInvokes_q ⟨t, th, b, cb, cap, tm, tb, ev⟩ true,
      tryEmitInvokes_q ⟨t, th, b, cb, cap, tm, tb, []⟩ true]
    simp [clearQ, List.append_assoc]
  · rw [Bool.not_eq_true] at hb
    simp only [finish, clearQ, hb, h2, eq_self_iff_true, if_true, Bool.false_eq_true, if_false,
      events_set, set_set, List.nil_append]
    rw [tryEmitInvokes_q
        ⟨t, th, b, cb, cap, tm, tb, ev ++ [Event.text b] ++ [Event.thinking (stripArtifact tb)]⟩ true,
      tryEmitInvokes_q ⟨t, th, b, cb, cap, tm, tb, [Event.text b] ++ [Event.thinking (stripArtifact tb)]⟩ true]
    simp [clearQ, List.append_assoc]
  · rw [Bool.not_eq_true] at hb
    rw [Bool.not_eq_true] at h2
    simp only [finish, clearQ, hb, h2, eq_self_iff_true, if_true, Bool.false_eq_true, if_false,
      events_set, set_set, List.nil_append]
    rw [tryEmitInvokes_q ⟨t, th, b, cb, cap, tm, tb, ev ++ [Event.text b]⟩ true,
      tryEmitInvokes_q ⟨t, th, b, cb, cap, tm, tb, [Event.text b]⟩ true]
    simp [clearQ, List.append_assoc]

theorem feedStr_q : ∀ (cs : Str) (p : Parser),
    feedStr p cs = { feedStr (clearQ p) cs with events := p.events ++ (feedStr (clearQ p) cs).events } := by
  intro cs
  induction cs with
  | nil =>
    intro p
    obtain ⟨t, th, b, cb, cap, tm, tb, ev⟩ := p
    simp [feedStr, clearQ]
  | cons c cs ih =>
    intro p
    have h1 : feedStr p (c :: cs) = feedStr (feedChar p c) cs := rfl
    have h2 : feedStr (clearQ p) (c :: cs) = feedStr (feedChar (clearQ p) c) cs := rfl
    rw [h1, h2, ih (feedChar p c), ih (feedChar (clearQ p) c), feedChar_q p c,
      clearQ_set, events_set, set_set]
    simp [List.append_assoc]

/-! ## Drain-interleaving equivalence -/

theorem drainTrace_eq_bulk : ∀ (cs : Str) (p : Parser), drainTrace p cs = bulkTrace p cs := by
  intro cs
  induction cs with
  | nil =>
    intro p
    rfl
  | cons c cs ih =>
    intro p
    show (feedChar p c).events ++ drainTrace (clearQ (feedChar p c)) cs
        = (finish (feedStr (feedChar p c) cs)).events
    rw [ih (clearQ (feedChar p c))]
    show (feedChar p c).events ++ (finish (feedStr (clearQ (feedChar p c)) cs)).events = _
    rw [feedStr_q cs (feedChar p c)]
    rw [finish_q { feedStr (clearQ (feedChar p c)) cs with
        events := (feedChar p c).events ++ (feedStr (clearQ (feedChar p c)) cs).events }]
    rw [finish_q (feedStr (clearQ (feedChar p c)) cs)]
    simp only [clearQ_set, events_set, List.append_assoc]

/-! ## finish on a quiescent parser -/

theorem tryEmitInvokes_empty (t : Option Str) (th : Bool) (b : Str) (tm : Bool) (tb : Str)
    (q : List Event) (f : Bool) :
    tryEmitInvokes ⟨t, th, b, [], false, tm, tb, q⟩ f
      = ⟨t, th, b, [], false, tm, tb, q⟩ := by
  have hidx : idxOf invokeOpenL (lowerStr ([] : Str)) = none := rfl
  cases f <;> simp [tryEmitInvokes, hidx]

theorem finish_plain (t : Option Str) (th : Bool) (b : Str) (q : List Event) :
    finish ⟨t, th, b, [], false, false, [], q⟩
      = ⟨t, th, [], [], false, false, [],
          q ++ (if b.isEmpty then [] else [Event.text b]) ++ [Event.endEv]⟩ := by
  by_cases hb : b.isEmpty = true
  · simp only [finish, hb, eq_self_iff_true, if_true, Bool.and_false, Bool.false_and,
      Bool.and_true, Bool.true_and, Bool.false_eq_true, if_false, Bool.not_true]
    all_goals try rw [tryEmitInvokes_empty]
    all_goals simp [hb]
  · rw [Bool.not_eq_true] at hb
    simp only [finish, hb, Bool.false_eq_true, if_false, Bool.and_false, Bool.false_and,
      Bool.and_true, Bool.true_and, Bool.not_true, events_set]
    all_goals try rw [tryEmitInvokes_empty]
    all_goals try simp [hb]

/-- After finish, the non-queue state is quiescent, so a second finish appends
exactly one more end event. -/
theorem finish_finish (p : Parser) :
    finish (finish p) = { finish p with events := (finish p).events ++ [Event.endEv] } := by
  have h := finish_plain (finish p).triggerSignal (finish p).thinkingEnabled []
    (finish p).events
  calc finish (finish p)
      = finish ⟨(finish p).triggerSignal, (finish p).thinkingEnabled, [], [], false, false, [],
          (finish p).events⟩ := rfl
    _ = { finish p with events := (finish p).events ++ [Event.endEv] } := by
        rw [h]
        simp
        exact ⟨rfl, rfl, rfl, rfl, rfl⟩

/-! ## Runs over clean input (no trigger occurrence, no thinking tags) -/

/-- A plain-mode step with a configured trigger signal: if neither the trigger
signal nor the thinking start tag completes, the character is only appended to
the plain buffer and no event is produced. -/
theorem feedChar_trig_plain (t : Str) (th : Bool) (b cb tb : Str) (q : List Event) (c : Char)
    (ht : t.isEmpty = false)
    (hthink : th = true → strEnds (b ++ [c]) thinkingStartTag = false)
    (htrig : strEnds (b ++ [c]) t = false) :
    feedChar ⟨some t, th, b, cb, false, false, tb, q⟩ c
      = ⟨some t, th, b ++ [c], cb, false, false, tb, q⟩ := by
  simp only [feedChar, trigFalsy, ht, Bool.false_eq_true, if_false]
  cases th
  · simp [feedCharMain, trigVal, htrig]
  · simp [checkThinkingMode, hthink rfl, feedCharMain, trigVal, htrig]

/-- Feeding clean text in trigger-enabled mode only accumulates the plain buffer:
no event is produced and no flush ever happens. -/
theorem feedStr_trig_clean (t : Str) (ht : t.isEmpty = false) (th : Bool) :
    ∀ (cs b : Str) (q : List Event),
      hasSub t (b ++ cs) = false →
      hasSub thinkingStartTag (b ++ cs) = false →
      feedStr ⟨some t, th, b, [], false, false, [], q⟩ cs
        = ⟨some t, th, b ++ cs, [], false, false, [], q⟩ := by
  intro cs
  induction cs with
  | nil =>
    intro b q h1 h2
    simp [feedStr]
  | cons c cs ih =>
    intro b q h1 h2
    have hstep : feedChar ⟨some t, th, b, [], false, false, [], q⟩ c
        = ⟨some t, th, b ++ [c], [], false, false, [], q⟩ :=
      feedChar_trig_plain t th b [] [] q c ht
        (fun _ => strEnds_false_of_not_hasSub h2) (strEnds_false_of_not_hasSub h1)
    show feedStr (feedChar ⟨some t, th, b, [], false, false, [], q⟩ c) cs = _
    rw [hstep]
    have h1a : hasSub t ((b ++ [c]) ++ cs) = false := by
      rw [List.append_assoc, List.singleton_append]
      exact h1
    have h2a : hasSub thinkingStartTag ((b ++ [c]) ++ cs) = false := by
      rw [List.append_assoc, List.singleton_append]
      exact h2
    rw [ih (b ++ [c]) q h1a h2a]
    simp

/-- A no-trigger-mode step on clean text: the character goes to the plain buffer,
which is flushed as one text event exactly when it reaches 256 characters. -/
theorem feedChar_noTrig_plain (t : Option Str) (ht : trigFalsy t = true) (th : Bool)
    (b cb tb : Str) (q : List Event) (c : Char)
    (hthink : th = true → strEnds (b ++ [c]) thinkingStartTag = false) :
    feedChar ⟨t, th, b, cb, false, false, tb, q⟩ c
      = if 256 ≤ (b ++ [c]).length
        then ⟨t, th, [], cb, false, false, tb, q ++ [Event.text (b ++ [c])]⟩
        else ⟨t, th, b ++ [c], cb, false, false, tb, q⟩ := by
  simp only [feedChar, ht, if_true]
  cases th
  · simp only [handleCharWithoutTrigger, Bool.not_false, if_true]
    all_goals try (split <;> simp)
    all_goals try simp
  · simp only [handleCharWithoutTrigger, Bool.not_true, Bool.false_eq_true, if_false,
      hthink rfl]
    all_goals try (split <;> simp)
    all_goals try simp

/-- Feeding clean text in either no-trigger mode: only text events are produced,
their concatenation together with the remaining buffer reconstructs the input,
and the buffer stays under the flush threshold. -/
theorem feedStr_noTrig_clean (t : Option Str) (ht : trigFalsy t = true) (th : Bool) :
    ∀ (cs b : Str) (q : List Event),
      b.length < 256 →
      (th = true → hasSub thinkingStartTag (b ++ cs) = false) →
      ∃ ts rest,
        feedStr ⟨t, th, b, [], false, false, [], q⟩ cs
          = ⟨t, th, rest, [], false, false, [], q ++ (ts.map Event.text)⟩
        ∧ joinStr ts ++ rest = b ++ cs ∧ rest.length < 256 := by
  intro cs
  induction cs with
  | nil =>
    intro b q hb hth
    refine ⟨[], b, ?_, ?_, hb⟩
    · simp [feedStr, joinStr]
    · simp [joinStr]
  | cons c cs ih =>
    intro b q hb hth
    have hstep := feedChar_noTrig_plain t ht th b [] [] q c
      (fun h => strEnds_false_of_not_hasSub (hth h))
    simp only [feedStr, List.foldl_cons]
    rw [hstep]
    by_cases hlen : 256 ≤ (b ++ [c]).length
    · simp only [hlen, if_true]
      have hth2 : th = true → hasSub thinkingStartTag ([] ++ cs) = false := by
        intro h
        rw [List.nil_append]
        exact hasSub_tail_false (hth h)
      obtain ⟨ts, rest, heq, hjoin, hr⟩ :=
        ih [] (q ++ [Event.text (b ++ [c])]) (by simp) hth2
      simp only [feedStr] at heq
      refine ⟨(b ++ [c]) :: ts, rest, ?_, ?_, hr⟩
      · rw [heq]
        simp [List.append_assoc]
      · rw [List.nil_append] at hjoin
        simp only [joinStr, List.append_assoc, hjoin]
        simp
    · simp only [hlen, if_false]
      have hlt : (b ++ [c]).length < 256 := Nat.lt_of_not_le hlen
      have hth2 : th = true → hasSub thinkingStartTag ((b ++ [c]) ++ cs) = false := by
        intro h
        rw [List.append_assoc, List.singleton_append]
        exact hth h
      obtain ⟨ts, rest, heq, hjoin, hr⟩ := ih (b ++ [c]) q hlt hth2
      simp only [feedStr] at heq
      refine ⟨ts, rest, heq, ?_, hr⟩
      rw [hjoin, List.append_assoc, List.singleton_append]

theorem joinStr_append (a b : List Str) : joinStr (a ++ b) = joinStr a ++ joinStr b := by
  induction a with
  | nil => simp [joinStr]
  | cons x t ih => simp [joinStr, ih]

/-- Claim C4: for every configuration, feeding text free of the trigger signal and
of thinking tags, then finishing, yields only text events whose concatenation is
exactly the input, followed by the single end event. -/
theorem c4_clean_passthrough (t : Option Str) (th : Bool) (cs : Str)
    (htrig : trigFalsy t = false → hasSub (trigVal t) cs = false)
    (h1 : hasSub thinkingStartTag cs = false)
    (h2 : hasSub thinkingEndTag cs = false) :
    ∃ ts : List Str,
      (finish (feedStr (initParser t th) cs)).events
        = ts.map Event.text ++ [Event.endEv] ∧ joinStr ts = cs := by
  by_cases htf : trigFalsy t = true
  · obtain ⟨ts, rest, heq, hjoin, _⟩ :=
      feedStr_noTrig_clean t htf th cs [] [] (by simp) (fun _ => by simpa using h1)
    have hinit : initParser t th = ⟨t, th, [], [], false, false, [], []⟩ := rfl
    rw [hinit, heq, finish_plain]
    cases rest with
    | nil =>
      refine ⟨ts, by simp, by simpa using hjoin⟩
    | cons r rt =>
      refine ⟨ts ++ [r :: rt], ?_, ?_⟩
      · simp
      · rw [joinStr_append]
        simp only [joinStr, List.append_nil]
        simpa using hjoin
  · rw [Bool.not_eq_true] at htf
    cases t with
    | none => simp [trigFalsy] at htf
    | some tt =>
      have htt : tt.isEmpty = false := by simpa [trigFalsy] using htf
      have hrun := feedStr_trig_clean tt htt th cs [] []
        (by simpa [trigVal] using htrig htf) (by simpa using h1)
      have hinit : initParser (some tt) th = ⟨some tt, th, [], [], false, false, [], []⟩ := rfl
      rw [hinit, hrun, finish_plain]
      cases cs with
      | nil => exact ⟨[], by simp, rfl⟩
      | cons c ct => exact ⟨[c :: ct], by simp, by simp [joinStr]⟩

/-- Witness for claim C4 at a concrete configuration and input. -/
theorem c4_clean_passthrough_witness :
    hasSub (trigVal (some ('<' :: 'T' :: '>' :: []))) ('h' :: 'i' :: []) = false
    ∧ ∃ ts : List Str,
      (finish (feedStr (initParser (some ('<' :: 'T' :: '>' :: [])) true) ('h' :: 'i' :: []))).events
        = ts.map Event.text ++ [Event.endEv] ∧ joinStr ts = 'h' :: 'i' :: [] :=
  ⟨by decide,
   c4_clean_passthrough (some ('<' :: 'T' :: '>' :: [])) true ('h' :: 'i' :: [])
     (fun _ => by decide) (by decide) (by decide)⟩

/-- Claim C10: with a configured trigger signal, plain text is never flushed by
size (the whole clean input accumulates and is emitted as a single text event at
finish), whereas the no-trigger mode flushes the plain buffer at 256 characters. -/
theorem c10_no_size_flush_with_trigger :
    (∀ (t : Str) (th : Bool) (cs : Str),
        t.isEmpty = false →
        hasSub t cs = false →
        hasSub thinkingStartTag cs = false →
        (feedStr (initParser (some t) th) cs).events = []
          ∧ (feedStr (initParser (some t) th) cs).buffer = cs
          ∧ (cs.isEmpty = false →
              (finish (feedStr (initParser (some t) th) cs)).events
                = [Event.text cs, Event.endEv]))
      ∧ (feedStr (initParser none false) (List.replicate 256 'a')).events
          = [Event.text (List.replicate 256 'a')] := by
  constructor
  · intro t th cs ht h1 h2
    have hinit : initParser (some t) th = ⟨some t, th, [], [], false, false, [], []⟩ := rfl
    have hrun := feedStr_trig_clean t ht th cs [] [] (by simpa using h1) (by simpa using h2)
    rw [hinit, hrun]
    refine ⟨rfl, by simp, ?_⟩
    intro hcs
    rw [finish_plain]
    simp [hcs]
  · rfl

/-- Witness for claim C10 at a concrete trigger signal and input. -/
theorem c10_no_size_flush_with_trigger_witness :
    hasSub ('Z' :: []) ('h' :: 'i' :: []) = false
    ∧ (feedStr (initParser (some ('Z' :: [])) false) ('h' :: 'i' :: [])).events = []
    ∧ (finish (feedStr (initParser (some ('Z' :: [])) false) ('h' :: 'i' :: []))).events
        = [Event.text ('h' :: 'i' :: []), Event.endEv] :=
  ⟨by decide,
   (c10_no_size_flush_with_trigger.1 ('Z' :: []) false ('h' :: 'i' :: [])
     (by decide) (by decide) (by decide)).1,
   (c10_no_size_flush_with_trigger.1 ('Z' :: []) false ('h' :: 'i' :: [])
     (by decide) (by decide) (by decide)).2.2 (by decide)⟩

/-! ## Thinking events: what the machine can emit -/

theorem mem_tryEmitInvokes (p : Parser) (f : Bool) (e : Event) (h : e ∈ p.events) :
    e ∈ (tryEmitInvokes p f).events := by
  rw [tryEmitInvokes_q, events_set]
  exact List.mem_append_left _ h

/-- tryEmitInvokes never appends a thinking event. -/
theorem tryEmitInvokes_no_thinking (p : Parser) (f : Bool) (s : Str)
    (h : Event.thinking s ∈ (tryEmitInvokes p f).events) : Event.thinking s ∈ p.events := by
  obtain ⟨t, th, b, cb, cap, tm, tb, ev⟩ := p
  simp only [tryEmitInvokes] at h
  rcases h1 : idxOf invokeOpenL (lowerStr cb) with _ | si <;> simp only [h1] at h
  · cases f <;> simp_all
  · rcases h2 : idxOfFrom invokeCloseL cb si with _ | ei <;> simp only [h2] at h
    · exact h
    · rcases h3 : parseInvokeXml ((cb.take (ei + 9)).drop si) with _ | nv <;>
        simp only [h3] at h
      all_goals
        first
          | (revert h
             split <;> intro h <;> (try split at h) <;> simp_all)
          | simp_all

/-- feedCharMain appends a thinking event never (its pushes are text and
tool-call events only). -/
theorem feedCharMain_no_thinking (p1 : Parser) (c : Char) (s : Str)
    (h : Event.thinking s ∈ (feedCharMain p1 c).events) : Event.thinking s ∈ p1.events := by
  obtain ⟨t, th, b, cb, cap, tm, tb, ev⟩ := p1
  simp only [feedCharMain] at h
  revert h
  split
  · intro h
    exact h
  · split
    · intro h
      have := tryEmitInvokes_no_thinking ⟨t, th, b, cb ++ [c], cap, tm, tb, ev⟩ false s h
      exact this
    · intro h
      revert h
      split <;> intro h <;> (try split at h) <;> simp_all

/-- A thinking event appended by checkThinkingMode has non-empty content. -/
theorem checkThinkingMode_thinking (p : Parser) (c : Char) (s : Str)
    (h : Event.thinking s ∈ (checkThinkingMode p c).events) :
    Event.thinking s ∈ p.events ∨ s ≠ [] := by
  obtain ⟨t, th, b, cb, cap, tm, tb, ev⟩ := p
  simp only [checkThinkingMode] at h
  revert h
  split
  · intro h
    exact Or.inl h
  · split
    · split
      · intro h
        simp only [events_set] at h
        rcases List.mem_append.mp h with h | h
        · exact Or.inl h
        · revert h
          split <;> intro h <;> simp_all
      · intro h
        exact Or.inl h
    · split
      · intro h
        simp only [events_set] at h
        rcases List.mem_append.mp h with h | h
        · exact Or.inl h
        · revert h
          split
          · intro h
            simp_all
          · intro h
            rename_i hcond
            simp only [List.mem_singleton] at h
            rw [Event.thinking.injEq] at h
            subst h
            exact Or.inr (by simpa using hcond)
      · intro h
        exact Or.inl h

/-- A thinking event appended by handleCharWithoutTrigger has non-empty content. -/
theorem handleCharWithoutTrigger_thinking (p : Parser) (c : Char) (s : Str)
    (h : Event.thinking s ∈ (handleCharWithoutTrigger p c).events) :
    Event.thinking s ∈ p.events ∨ s ≠ [] := by
  obtain ⟨t, th, b, cb, cap, tm, tb, ev⟩ := p
  simp only [handleCharWithoutTrigger] at h
  revert h
  split
  · split <;> intro h <;> simp_all
  · split
    · split
      · intro h
        simp only [events_set] at h
        rcases List.mem_append.mp h with h | h
        · exact Or.inl h
        · revert h
          split
          · intro h
            simp_all
          · intro h
            rename_i hcond
            simp only [List.mem_singleton] at h
            rw [Event.thinking.injEq] at h
            subst h
            exact Or.inr (by simpa using hcond)
      · intro h
        exact Or.inl h
    · split
      · intro h
        simp only [events_set] at h
        rcases List.mem_append.mp h with h | h
        · exact Or.inl h
        · revert h
          split <;> intro h <;> simp_all
      · split <;> intro h <;> simp_all

/-- A thinking event appended by a feedChar step has non-empty content. -/
theorem feedChar_thinking_nonempty (p : Parser) (c : Char) (s : Str)
    (h : Event.thinking s ∈ (feedChar p c).events) :
    Event.thinking s ∈ p.events ∨ s ≠ [] := by
  rw [feedChar] at h
  revert h
  split
  · intro h
    exact handleCharWithoutTrigger_thinking p c s h
  · intro h
    have h2 := feedCharMain_no_thinking (if p.thinkingEnabled then checkThinkingMode p c else p) c s h
    revert h2
    split
    · intro h2
      exact checkThinkingMode_thinking p c s h2
    · intro h2
      exact Or.inl h2

/-! ## Claim theorems -/

/-- Claim C5: feeding character by character while draining after every character
produces the same final event sequence as a single bulk feed followed by finish
and one drain. -/
theorem c5_drain_equals_bulk (t : Option Str) (th : Bool) (cs : Str) :
    drainTrace (initParser t th) cs = bulkTrace (initParser t th) cs :=
  drainTrace_eq_bulk cs (initParser t th)

/-- Claim C8: consumeEvents is a destructive read: it returns the queued events
in order, empties the queue and changes nothing else, so an immediate second
call returns the empty sequence. -/
theorem c8_consume_destructive (p : Parser) :
    consumeEvents p = (p.events, { p with events := [] })
      ∧ (consumeEvents (consumeEvents p).2).1 = [] :=
  ⟨rfl, rfl⟩

/-- Claim C2 counterexample: finish is not terminal; a repeated finish call
appends a second end event to the already-ended queue. -/
theorem c2_counterexample :
    (finish (initParser none false)).events = [Event.endEv]
      ∧ (finish (finish (initParser none false))).events = [Event.endEv, Event.endEv] :=
  ⟨rfl, rfl⟩

/-- Amended claim C2: finish resets the accumulators but sets no terminal flag,
so a repeated finish appends exactly one more end event to the queue (and
subsequent feeding can continue to append events). -/
theorem c2_finish_not_terminal (p : Parser) :
    finish (finish p) = { finish p with events := (finish p).events ++ [Event.endEv] } :=
  finish_finish p

/-- Claim C3 counterexample: with a trigger signal configured and thinking
enabled, a stream that ends exactly at the end tag flushes a thinking event
whose content still contains the literal end tag, because the in-stream exit
check runs before the current character is appended and finish never strips the
tag. -/
theorem c3_counterexample :
    (finish (feedStr (initParser (some ('Z' :: [])) true)
        ("<thinking>x</thinking>".toList))).events
      = [Event.thinking ("x</thinking>".toList), Event.endEv]
    ∧ hasSub thinkingEndTag ("x</thinking>".toList) = true :=
  ⟨rfl, by decide⟩

/-- Amended claim C3: a thinking event emitted during feedChar always has
non-empty content (the in-stream exit strips the end tag, applies the correction
and emits only if the corrected content is non-empty); a thinking event flushed
by finish instead carries the correction applied to the raw thinking buffer with
no end-tag stripping, and its emission is gated on the raw buffer being
non-empty, so it may be empty or contain the end tag. -/
theorem c3_thinking_emission :
    (∀ (p : Parser) (c : Char) (s : Str),
        Event.thinking s ∈ (feedChar p c).events → Event.thinking s ∈ p.events ∨ s ≠ [])
    ∧ (∀ p : Parser, p.thinkingEnabled = true → p.thinkingMode = true →
        p.thinkingBuffer.isEmpty = false →
        Event.thinking (stripArtifact p.thinkingBuffer) ∈ (finish p).events) := by
  constructor
  · exact feedChar_thinking_nonempty
  · intro p hth htm htb
    simp only [finish]
    split
    · simp only [hth, htm, htb, Bool.true_and, Bool.not_false, Bool.and_self, if_true,
        eq_self_iff_true, events_set]
      refine List.mem_append_left _ (mem_tryEmitInvokes _ _ _ ?_)
      simp
    · simp only [hth, htm, htb, Bool.true_and, Bool.not_false, Bool.and_self, if_true,
        eq_self_iff_true, events_set]
      refine List.mem_append_left _ (mem_tryEmitInvokes _ _ _ ?_)
      simp

/-- Witness for amended claim C3: an in-stream exit emits non-empty content, and
a finish inside Thinking with raw buffer consisting of a single gt character
emits the empty corrected content. -/
theorem c3_thinking_emission_witness :
    (Event.thinking ('x' :: [])
        ∈ (feedChar ⟨none, true, [], [], false, true, ("x</thinking".toList), []⟩ '>').events
      ∧ (Event.thinking ('x' :: [])
          ∈ (⟨none, true, [], [], false, true, ("x</thinking".toList), []⟩ : Parser).events
        ∨ ('x' :: []) ≠ []))
    ∧ ((⟨some ('Z' :: []), true, [], [], false, true, ('>' :: []), []⟩ : Parser).thinkingBuffer.isEmpty
          = false
      ∧ Event.thinking (stripArtifact ('>' :: []))
          ∈ (finish ⟨some ('Z' :: []), true, [], [], false, true, ('>' :: []), []⟩).events) := by
  constructor
  · have hmem : Event.thinking ('x' :: [])
        ∈ (feedChar ⟨none, true, [], [], false, true, ("x</thinking".toList), []⟩ '>').events := by
      rw [show (feedChar ⟨none, true, [], [], false, true, ("x</thinking".toList), []⟩ '>').events
          = [Event.thinking ('x' :: [])] from rfl]
      exact List.mem_singleton.mpr rfl
    exact ⟨hmem, c3_thinking_emission.1 _ '>' _ hmem⟩
  · exact ⟨rfl,
      c3_thinking_emission.2 ⟨some ('Z' :: []), true, [], [], false, true, ('>' :: []), []⟩
        rfl rfl rfl⟩

/-- Claim C6: during an unforced extraction attempt, a complete open-to-close
invoke block whose trailing text (after trimming leading whitespace) is
non-empty and does not start with another open marker makes the machine emit the
entire capture buffer verbatim as one text event and exit capturing, with no
tool-call event; the consumed trigger-signal prefix is not restored. -/
theorem c6_unforced_fallback (p : Parser) (i j : Nat)
    (h1 : idxOf invokeOpenL (lowerStr p.captureBuffer) = some i)
    (h2 : idxOfFrom invokeCloseL p.captureBuffer i = some j)
    (h3 : (jsTrimStart (p.captureBuffer.drop (j + 9))).isEmpty = false)
    (h4 : strStarts (lowerStr (jsTrimStart (p.captureBuffer.drop (j + 9)))) invokeOpenL = false) :
    tryEmitInvokes p false
      = { p with
          events := p.events ++ [Event.text p.captureBuffer],
          captureBuffer := [], capturing := false } := by
  obtain ⟨t, th, b, cb, cap, tm, tb, ev⟩ := p
  simp only [tryEmitInvokes, h1, h2]
  simp [h3, h4]

/-- Witness for claim C6 at a concrete capture buffer (the trigger prefix that
started the capture is gone from the emitted fallback text). -/
theorem c6_unforced_fallback_witness :
    idxOf invokeOpenL (lowerStr ("<invoke name=\"f\"></invoke>x".toList)) = some 0
    ∧ idxOfFrom invokeCloseL ("<invoke name=\"f\"></invoke>x".toList) 0 = some 17
    ∧ (jsTrimStart (("<invoke name=\"f\"></invoke>x".toList).drop 26)).isEmpty = false
    ∧ tryEmitInvokes
        ⟨some ("<<T>>".toList), false, [], ("<invoke name=\"f\"></invoke>x".toList),
          true, false, [], []⟩ false
      = ⟨some ("<<T>>".toList), false, [], [], false, false, [],
          [Event.text ("<invoke name=\"f\"></invoke>x".toList)]⟩ := by
  refine ⟨by decide, by decide, by decide, ?_⟩
  have h := c6_unforced_fallback
    ⟨some ("<<T>>".toList), false, [], ("<invoke name=\"f\"></invoke>x".toList),
      true, false, [], []⟩ 0 17 (by decide) (by decide) (by decide) (by decide)
  simpa using h

/-- Claim C9: with no trigger signal and thinking enabled, entering Thinking
consumes the entire start tag (the thinking buffer starts empty: no delimiter
artifact exists), yet the leading-artifact correction is still applied on exit,
so genuine content beginning with optional whitespace, a gt character and
optional whitespace silently loses that whole leading run. -/
theorem c9_artifact_loss :
    (∀ (p : Parser) (c : Char),
        trigFalsy p.triggerSignal = true → p.thinkingEnabled = true →
        p.thinkingMode = false → strEnds (p.buffer ++ [c]) thinkingStartTag = true →
        (feedChar p c).thinkingMode = true ∧ (feedChar p c).thinkingBuffer = [])
    ∧ (∀ (p : Parser) (c : Char),
        trigFalsy p.triggerSignal = true → p.thinkingEnabled = true →
        p.thinkingMode = true →
        strEnds (p.thinkingBuffer ++ [c]) thinkingEndTag = true →
        (feedChar p c).events
          = p.events ++
            (if (stripArtifact ((p.thinkingBuffer ++ [c]).take
                  ((p.thinkingBuffer ++ [c]).length - 11))).isEmpty
             then []
             else [Event.thinking (stripArtifact ((p.thinkingBuffer ++ [c]).take
                  ((p.thinkingBuffer ++ [c]).length - 11)))]))
    ∧ (∀ (ws1 ws2 rest : Str),
        (∀ x ∈ ws1, isJsWs x = true) → (∀ x ∈ ws2, isJsWs x = true) →
        (∀ y ys, rest = y :: ys → isJsWs y = false) →
        stripArtifact (ws1 ++ '>' :: (ws2 ++ rest)) = rest) := by
  refine ⟨?_, ?_, ?_⟩
  · intro p c htf hth htm hE
    obtain ⟨t, th, b, cb, cap, tm, tb, ev⟩ := p
    simp only at htf hth htm hE
    subst hth
    subst htm
    simp only [feedChar, htf, if_true, handleCharWithoutTrigger, Bool.not_true,
      Bool.false_eq_true, if_false, hE, if_true]
    all_goals simp
  · intro p c htf hth htm hE
    obtain ⟨t, th, b, cb, cap, tm, tb, ev⟩ := p
    simp only at htf hth htm hE
    subst hth
    subst htm
    simp only [feedChar, htf, if_true, handleCharWithoutTrigger, Bool.not_true,
      Bool.false_eq_true, if_false, hE, if_true, events_set]
    all_goals try (split <;> simp_all)
    all_goals try simp
  · intro ws1 ws2 rest hw1 hw2 hr
    have htw : (ws1 ++ '>' :: (ws2 ++ rest)).takeWhile isJsWs = ws1 :=
      takeWhile_ws_app isJsWs ws1 '>' (ws2 ++ rest) hw1 (by decide)
    simp only [stripArtifact, htw, List.drop_left]
    have hdw : (ws2 ++ rest).dropWhile isJsWs = rest.dropWhile isJsWs :=
      dropWhile_ws_app isJsWs ws2 rest hw2
    rw [hdw]
    cases rest with
    | nil => rfl
    | cons y ys => simp [List.dropWhile_cons, hr y ys rfl]

/-- Witness for claim C9: entering Thinking leaves an empty thinking buffer; a
block whose genuine content is gt-space-h-i loses the leading run and emits only
h-i; the correction strips exactly such a leading run. -/
theorem c9_artifact_loss_witness :
    ((feedChar ⟨none, true, ("ab<thinking".toList), [], false, false, [], []⟩ '>').thinkingMode
        = true
      ∧ (feedChar ⟨none, true, ("ab<thinking".toList), [], false, false, [], []⟩ '>').thinkingBuffer
        = [])
    ∧ (feedChar ⟨none, true, [], [], false, true, ("> hi</thinking".toList), []⟩ '>').events
        = [Event.thinking ('h' :: 'i' :: [])]
    ∧ stripArtifact ((' ' :: []) ++ '>' :: ((' ' :: []) ++ ('h' :: 'i' :: [])))
        = 'h' :: 'i' :: [] := by
  refine ⟨?_, ?_, ?_⟩
  · exact c9_artifact_loss.1 ⟨none, true, ("ab<thinking".toList), [], false, false, [], []⟩ '>'
      rfl rfl rfl (by decide)
  · have h := c9_artifact_loss.2.1 ⟨none, true, [], [], false, true, ("> hi</thinking".toList), []⟩
      '>' rfl rfl rfl (by decide)
    simpa using h
  · exact c9_artifact_loss.2.2 (' ' :: []) (' ' :: []) ('h' :: 'i' :: [])
      (by decide) (by decide) (fun y ys hy => by cases hy; decide)

def c1trigger : Str := "<<CALL>>".toList

def c1input : Str :=
  "Hi<<CALL>>\n<invoke name=\"f\"><parameter name=\"x\">\"1\"</parameter></invoke>\n".toList

/-- Claim C1 counterexample: the parameter's trimmed inner text is the
five characters quote-one-quote, which JSON-parses to the JSON string one,
not to the number one: the emitted tool call carries the string value. -/
theorem c1_counterexample :
    (finish (feedStr (initParser (some c1trigger) false) c1input)).events
      = [Event.text ('H' :: 'i' :: []), Event.text ('\n' :: []),
         Event.tool_call ('f' :: []) [(('x' :: []), Json.str ('1' :: []))],
         Event.text ('\n' :: []), Event.endEv]
    ∧ Json.str ('1' :: []) ≠ Json.num 1 0 :=
  ⟨rfl, fun h => Json.noConfusion h⟩

/-- Amended claim C1: with trigger signal <<CALL>> (thinking irrelevant), the
given input yields a text event containing Hi, then a tool call named f whose
argument x is the JSON string one (the trimmed inner text parses as a JSON
string), then the final end event (with two single-newline text events around
the tool call). -/
theorem c1_invoke_run (th : Bool) :
    (finish (feedStr (initParser (some c1trigger) th) c1input)).events
      = [Event.text ('H' :: 'i' :: []), Event.text ('\n' :: []),
         Event.tool_call ('f' :: []) [(('x' :: []), Json.str ('1' :: []))],
         Event.text ('\n' :: []), Event.endEv] := by
  cases th <;> rfl

theorem partText_eq (v : JsValue) : partTextCode v = partTextSpec v := by
  cases v <;> rfl

/-- Claim C7: extractDeltaText is total over the modelled values by construction
and follows exactly the claimed precedence: a string content field verbatim; an
array concatenated element-wise (strings pass through, objects contribute their
text field coerced to string, anything else empty); a single object with a text
field coerced to string; every other shape the empty string. -/
theorem c7_delta_precedence (d : JsValue) : extractDeltaText d = extractDeltaTextSpec d := by
  have hpt : partTextCode = partTextSpec := funext partText_eq
  cases d with
  | obj fs =>
    simp only [extractDeltaText, extractDeltaTextSpec, jsGetField]
    rcases hc : lookupField fs contentKeyL with _ | v
    · simp [jsFalsy]
    · cases v with
      | undef => simp [jsFalsy]
      | null => simp [jsFalsy]
      | bool b => cases b <;> simp [jsFalsy]
      | num n => by_cases hn : (n == 0) = true <;> simp [jsFalsy, hn]
      | str str0 => cases str0 <;> simp [jsFalsy]
      | arr parts => simp [jsFalsy, hpt]
      | obj gs => simp [jsFalsy]
  | undef => rfl
  | null => rfl
  | bool b => cases b <;> rfl
  | num n =>
    by_cases hn : (n == 0) = true <;>
      simp [extractDeltaText, extractDeltaTextSpec, jsGetField, jsFalsy, hn]
  | str str0 => cases str0 <;> simp [extractDeltaText, extractDeltaTextSpec, jsGetField, jsFalsy]
  | arr l => simp [extractDeltaText, extractDeltaTextSpec, jsGetField, jsFalsy]

end Toolify
